import Mathlib

/-!
Shallow embedding of `src/main.py` (class `CsvDataProcessor`): the
station-allocation algorithm (`template_function`, `_distribute_students`,
`_assign_station_for_student`, `find_random_available`, `check_not_in_list`)
and the column codec (`_collect_previous_state`, `convert_state_to_column`).

Modelling conventions:
* A grouping (the Python dicts `previous_state` / `new_state` with keys 0..8)
  is a list of 9 lists; position `s` is the group of station `s`.
* The ambient random source (`random.randint(1, 8)`) is modelled as an
  injected stream `rng : Nat → Fin 8`; the `k`-th call to `randomize`
  returns `(rng k).val + 1` and advances the counter to `k + 1`.
* Bounded `while` loops (`attempts < 15`, `attempts < 8`) are modelled by
  structural recursion on the remaining number of allowed retries.
* A raised `ValueError` ("Все станции заполнены до максимума") is modelled
  with `Except`; the error payload carries the data the caller can still
  observe (the random counter, respectively the allocator state at abort).
* Placements are additionally recorded in a ghost `trace` field (the order
  in which (student, station) pairs are appended to `new_state`), which the
  Python code makes observable through its prints; it does not influence
  the computation.
-/

/-- A grouping: position `s` (0..8) holds the ordered list of item indices
currently assigned to station `s`. -/
abbrev Grouping := List (List Nat)

/-- The injectable stream of random draws; draw `k` yields
`random.randint(1, 8) = (rng k).val + 1`. -/
abbrev RNG := Nat → Fin 8

/-- `lst[s]` on a grouping dict: the group of station `s`. -/
def grp (g : Grouping) (s : Nat) : List Nat := g.getD s []

/-- Total number of items held across all groups of a grouping. -/
def totalItems (g : Grouping) : Nat := (g.map List.length).sum

/-- `self.randomize()`: one call to `random.randint(1, 8)`, consuming one
draw of the injected stream and advancing the counter. -/
def randomize (rng : RNG) (k : Nat) : Nat × Nat := ((rng k).val + 1, k + 1)

/-- The all-full scan at the top of `find_random_available`: `all_full` is
left `True` iff no station 1..8 has fewer than 3 items. -/
def allFull (lst : Grouping) : Bool :=
  (List.range' 1 8).all fun s => 3 ≤ (grp lst s).length

/-- The deterministic fallback of `find_random_available`: scan stations in
ascending order and take the first with fewer than 3 items; if none is
found the current candidate is kept unchanged. -/
def firstAvailable (lst : Grouping) (cur : Nat) : Nat :=
  match (List.range' 1 8).find? (fun s => (grp lst s).length < 3) with
  | some s => s
  | none => cur

/-- The random retry loop of `find_random_available`:
`while len(lst[assigned_station]) == 3 and attempts < 8`. The fuel argument
is `8 - attempts`. -/
def fra_loop (rng : RNG) (lst : Grouping) : Nat → Nat → Nat → Nat × Nat
  | 0, a, k => (a, k)
  | fuel + 1, a, k =>
    if (grp lst a).length = 3 then
      let r := randomize rng k
      fra_loop rng lst fuel r.1 r.2
    else (a, k)

/-- `find_random_available(self, lst)`: raise if every station 1..8 is at
capacity, otherwise one random draw, then up to 8 random retries while the
candidate is full, then the ascending fallback scan if the candidate is
still full. `.error k` models the raised `ValueError`. -/
def find_random_available (rng : RNG) (lst : Grouping) (k : Nat) :
    Except Nat (Nat × Nat) :=
  if allFull lst then .error k
  else
    let r0 := randomize rng k
    let r1 := fra_loop rng lst 8 r0.1 r0.2
    if (grp lst r1.1).length = 3 then .ok (firstAvailable lst r1.1, r1.2)
    else .ok (r1.1, r1.2)

/-- `check_not_in_list(values, lst)`: `True` iff no element of `values`
occurs in `lst`. -/
def check_not_in_list (values lst : List Nat) : Bool :=
  values.all fun v => !(lst.contains v)

/-- The avoidance retry loop of `_assign_station_for_student`:
`while not check_not_in_list(...) and attempts < 15`. Fuel is
`15 - attempts`; a `ValueError` from `find_random_available` propagates. -/
def assign_loop (rng : RNG) (group : List Nat) (ns : Grouping) :
    Nat → Nat → Nat → Except Nat (Nat × Nat)
  | 0, a, k => .ok (a, k)
  | fuel + 1, a, k =>
    if check_not_in_list group (grp ns a) then .ok (a, k)
    else
      match find_random_available rng ns k with
      | .ok p => assign_loop rng group ns fuel p.1 p.2
      | .error k2 => .error k2

/-- `_assign_station_for_student(student, students_group, new_state)`:
an initial random available station, then up to 15 retries looking for a
station free of the student's previous group mates. -/
def assign_station_for_student (rng : RNG) (group : List Nat)
    (ns : Grouping) (k : Nat) : Except Nat (Nat × Nat) :=
  match find_random_available rng ns k with
  | .ok p => assign_loop rng group ns 15 p.1 p.2
  | .error k2 => .error k2

/-- The allocator state threaded through `_distribute_students`: the
`new_state` grouping, the random-draw counter, the ghost trace of
performed placements, and the students whose placement failed (the logged
"Не удалось назначить станцию" cases). -/
structure DistState where
  ns : Grouping
  k : Nat
  trace : List (Nat × Nat)
  failures : List Nat
deriving DecidableEq

/-- The freshly initialised allocator state: `new_state = {i: [] for i in
range(0, 9)}`, counter 0, nothing placed, no failures. -/
def initState : DistState := ⟨List.replicate 9 [], 0, [], []⟩

/-- `new_state[a].append(stu)` plus bookkeeping: one successful placement. -/
def placeAt (st : DistState) (stu a k2 : Nat) : DistState :=
  { ns := st.ns.set a (grp st.ns a ++ [stu]), k := k2,
    trace := st.trace ++ [(stu, a)], failures := st.failures }

/-- One student of a nonzero previous group: the `try/except ValueError`
around `_assign_station_for_student` plus the append; a failed placement is
logged and the loop continues. -/
def placeNonzero (rng : RNG) (group : List Nat) (st : DistState)
    (stu : Nat) : DistState :=
  match assign_station_for_student rng group st.ns st.k with
  | .ok p => placeAt st stu p.1 p.2
  | .error k2 => { st with k := k2, failures := st.failures ++ [stu] }

/-- The previous-group-0 branch of `_distribute_students`: placements via
`find_random_available` with no `try/except`, so a `ValueError` propagates
and aborts with the state reached so far. -/
def distribute_zero (rng : RNG) :
    List Nat → DistState → Except DistState DistState
  | [], st => .ok st
  | stu :: rest, st =>
    match find_random_available rng st.ns st.k with
    | .ok p => distribute_zero rng rest (placeAt st stu p.1 p.2)
    | .error k2 => .error { st with k := k2 }

/-- The main loop of `_distribute_students` over
`previous_state.items()` (keys in insertion order 0, 1, ..., 8): empty
groups are skipped, nonzero groups go through the avoidance placement with
per-student error handling, group 0 goes through the bare
`find_random_available` placement. -/
def distribute_aux (rng : RNG) :
    List (Nat × List Nat) → DistState → Except DistState DistState
  | [], st => .ok st
  | (key, students) :: rest, st =>
    if students.isEmpty then distribute_aux rng rest st
    else if key ≠ 0 then
      distribute_aux rng rest (students.foldl (placeNonzero rng students) st)
    else
      match distribute_zero rng students st with
      | .ok st2 => distribute_aux rng rest st2
      | .error st2 => .error st2

/-- `_distribute_students(previous_state, new_state)`: iterate the groups
of `previous_state` in key order 0..8 (the insertion order of
`{i: [] for i in range(0, 9)}`). -/
def distribute_students (rng : RNG) (prev : Grouping) (st0 : DistState) :
    Except DistState DistState :=
  distribute_aux rng prev.enum st0

/-- The allocator state observable after a run, whether it completed or
aborted with the propagated group-0 `ValueError`. -/
def resultState : Except DistState DistState → DistState
  | .ok st => st
  | .error st => st

/-- Replay a placement trace from the empty `new_state`; used to state
properties of every intermediate state of a run. -/
def traceState (tr : List (Nat × Nat)) : Grouping :=
  tr.foldl (fun ns e => ns.set e.2 (grp ns e.2 ++ [e.1]))
    (List.replicate 9 [])

/-- Every station group of a grouping holds at most 3 items. -/
def capAll (g : Grouping) : Prop := ∀ s, s < 9 → (grp g s).length ≤ 3

/-- A placement trace is safe: every placement targets a station 1..8 that,
at the moment of the placement, holds fewer than 3 items. -/
def SafeTrace (tr : List (Nat × Nat)) : Prop :=
  ∀ j, j < tr.length →
    1 ≤ (tr.getD j (0, 0)).2 ∧ (tr.getD j (0, 0)).2 ≤ 8 ∧
    (grp (traceState (tr.take j)) (tr.getD j (0, 0)).2).length < 3

/-- The run invariant of `_distribute_students`: `new_state` is exactly the
replay of the recorded placements, and every recorded placement was safe
(station 1..8, fewer than 3 items at its time). -/
def InvDS (st : DistState) : Prop :=
  st.ns = traceState st.trace ∧ SafeTrace st.trace

/-- The number of items a list of (key, group) dict entries carries. -/
def totalOf (l : List (Nat × List Nat)) : Nat :=
  (l.map fun p => p.2.length).sum

/-- A raw cell value of the last table column, as seen by
`_collect_previous_state`. `null` covers `None`/`NaN` (`pd.isnull` true);
a finite float is carried as a fraction `num / den`; a string is carried
verbatim. -/
inductive RawValue
  | null
  | intVal (n : Int)
  | floatVal (num den : Int)
  | strVal (s : String)
deriving DecidableEq

/-- `pd.isnull(value)`. -/
def isnull : RawValue → Bool
  | .null => true
  | _ => false

/-- Decimal digit test on a character. -/
def isDigitChar (c : Char) : Bool := 48 ≤ c.toNat && c.toNat ≤ 57

/-- Accumulate a decimal numeral; any non-digit character means the whole
string is not an integer literal. -/
def parseDigitsAux : List Char → Nat → Option Nat
  | [], acc => some acc
  | c :: rest, acc =>
    if isDigitChar c then parseDigitsAux rest (acc * 10 + (c.toNat - 48))
    else none

/-- A nonempty run of decimal digits, as a natural number. -/
def parseDigits : List Char → Option Nat
  | [] => none
  | cs => parseDigitsAux cs 0

/-- Python `int(s)` on a string: an optional sign followed by a nonempty
run of digits parses; anything else raises `ValueError`. -/
def pyStrToInt (s : String) : Option Int :=
  match s.data with
  | '-' :: rest => (parseDigits rest).map fun n => -(n : Int)
  | '+' :: rest => (parseDigits rest).map fun n => (n : Int)
  | cs => (parseDigits cs).map fun n => (n : Int)

/-- Python `int(value)` on a non-null cell: integers unchanged, finite
floats truncate toward zero (`Int.tdiv`), strings parse as integer
literals or raise (`none`). -/
def pyIntOf : RawValue → Option Int
  | .null => none
  | .intVal n => some n
  | .floatVal num den => some (Int.tdiv num den)
  | .strVal s => pyStrToInt s

/-- `previous_state[key].append(i)`. -/
def appendAt (ps : Grouping) (key i : Nat) : Grouping :=
  ps.set key (grp ps key ++ [i])

/-- One row of `_collect_previous_state`: compute `key` (0 for null cells,
otherwise `int(value)`), append the row index when `key` is a key of
`previous_state` (0..8); a `ValueError`/`TypeError` from `int` is caught
and reported (the `Bool` is the emitted diagnostic). -/
def collect_cell (ps : Grouping) (i : Nat) (v : RawValue) :
    Grouping × Bool :=
  if isnull v then (appendAt ps 0 i, false)
  else
    match pyIntOf v with
    | none => (ps, true)
    | some n => if 0 ≤ n ∧ n ≤ 8 then (appendAt ps n.toNat i, false)
      else (ps, false)

/-- The group (if any) that a raw cell is routed to by `collect_cell`. -/
def cellKey (v : RawValue) : Option Nat :=
  if isnull v then some 0
  else
    match pyIntOf v with
    | none => none
    | some n => if 0 ≤ n ∧ n ≤ 8 then some n.toNat else none

/-- A cell that triggers the caught exception (non-null, not parseable as
an integer): the only case that emits the decode diagnostic. -/
def isBad (v : RawValue) : Bool := !isnull v && (pyIntOf v).isNone

/-- The `for i, value in enumerate(...)` loop of `_collect_previous_state`,
accumulating the grouping and the row indices of emitted diagnostics. -/
def collect_aux : Nat → List RawValue → Grouping → List Nat →
    Grouping × List Nat
  | _, [], ps, ds => (ps, ds)
  | i, v :: rest, ps, ds =>
    collect_aux (i + 1) rest (collect_cell ps i v).1
      (if (collect_cell ps i v).2 then ds ++ [i] else ds)

/-- `_collect_previous_state` over the last column: the decoded
`previous_state` (groups 0..8) and the rows that produced a warning. -/
def collect_previous_state (column : List RawValue) : Grouping × List Nat :=
  collect_aux 0 column (List.replicate 9 []) []

/-- The inner loop of `convert_state_to_column` for one dict entry:
`column_values[index] = key` for each listed index. -/
def writeGroup (col : List Nat) (key : Nat) (idxs : List Nat) : List Nat :=
  idxs.foldl (fun c i => c.set i key) col

/-- `convert_state_to_column(state_dict)` with `n = len(self.data)`: a
column of `n` zeros, then each dict entry writes its key at its listed
row indices (dict entries in iteration order). -/
def convert_state_to_column (n : Nat) (state : List (Nat × List Nat)) :
    List Nat :=
  state.foldl (fun col p => writeGroup col p.1 p.2) (List.replicate n 0)

/-- `template_function()` restricted to its decision logic: decode the last
column into `previous_state`, then distribute into a fresh `new_state`. -/
def template_function (rng : RNG) (column : List RawValue) :
    Except DistState DistState :=
  distribute_students rng (collect_previous_state column).1 initState

/-- The all-ones draw stream: every `randomize` call returns station 1. -/
def rng0 : RNG := fun _ => 0

/-- The end-to-end avoidance scenario of the spec: previous group 1 holds
items 0, 1, 2 and every other group is empty. -/
def prev4 : Grouping := [[], [0, 1, 2], [], [], [], [], [], [], []]

/-- A previous state with one item in group 0 and one in group 1, used to
exhibit the order in which groups are processed. -/
def prevC3 : Grouping := [[9], [7], [], [], [], [], [], [], []]

/-- A previous state with 26 items: 25 in group 0 and one in group 1. -/
def prevC6 : Grouping :=
  [[0, 1, 2, 3, 4, 5, 6, 7, 8, 9, 10, 11, 12, 13, 14, 15, 16, 17, 18, 19,
    20, 21, 22, 23, 24], [25], [], [], [], [], [], [], []]

/-- The decode test vector `[1, "abc", 0, 9, null, 3]`. -/
def column8 : List RawValue :=
  [.intVal 1, .strVal "abc", .intVal 0, .intVal 9, .null, .intVal 3]

/-- `True` iff the run aborted with the propagated group-0 error. -/
def isError : Except DistState DistState → Bool
  | .error _ => true
  | .ok _ => false

/-! ### Basic facts about `grp`, `List.set` and `totalItems` -/

theorem grp_nil (s : Nat) : grp [] s = [] := rfl

theorem grp_cons_zero (x : List Nat) (t : Grouping) : grp (x :: t) 0 = x := rfl

theorem grp_cons_succ (x : List Nat) (t : Grouping) (s : Nat) :
    grp (x :: t) (s + 1) = grp t s := rfl

theorem grp_set_self : ∀ (g : Grouping) (a : Nat), a < g.length →
    ∀ L, grp (g.set a L) a = L
  | [], a, h, _ => absurd h (by simp)
  | _ :: _, 0, _, _ => rfl
  | _ :: t, a + 1, h, L => grp_set_self t a (by simpa using h) L

theorem grp_set_ne : ∀ (g : Grouping) (a s : Nat), s ≠ a →
    ∀ L, grp (g.set a L) s = grp g s
  | [], _, _, _, _ => rfl
  | _ :: _, 0, 0, hne, _ => absurd rfl hne
  | _ :: _, 0, _ + 1, _, _ => rfl
  | _ :: _, _ + 1, 0, _, _ => rfl
  | _ :: t, a + 1, s + 1, hne, L =>
    grp_set_ne t a s (fun h => hne (by omega)) L

theorem grp_replicate : ∀ n s : Nat, grp (List.replicate n ([] : List Nat)) s = []
  | 0, _ => rfl
  | _ + 1, 0 => rfl
  | n + 1, s + 1 => grp_replicate n s

theorem grp_length_le (g : Grouping) (s : Nat) (h : g.length ≤ s) :
    grp g s = [] := List.getD_eq_default g [] h

theorem totalItems_set_append : ∀ (g : Grouping) (a x : Nat), a < g.length →
    totalItems (g.set a (grp g a ++ [x])) = totalItems g + 1
  | [], a, _, h => absurd h (by simp)
  | y :: t, 0, x, _ => by
    simp only [List.set_cons_zero, grp_cons_zero, totalItems, List.map_cons,
      List.sum_cons, List.length_append, List.length_cons, List.length_nil]
    omega
  | y :: t, a + 1, x, h => by
    have ih := totalItems_set_append t a x (by simpa using h)
    simp only [grp_cons_succ, List.set, totalItems, List.map_cons, List.sum_cons] at *
    omega

theorem totalItems_cons (x : List Nat) (t : Grouping) :
    totalItems (x :: t) = x.length + totalItems t := by
  simp [totalItems]

/-- Split a list known to have length 9 into its nine entries. -/
theorem explode9 (l : Grouping) (h : l.length = 9) :
    ∃ g0 g1 g2 g3 g4 g5 g6 g7 g8, l = [g0, g1, g2, g3, g4, g5, g6, g7, g8] := by
  obtain - | ⟨g0, l⟩ := l; · simp at h
  obtain - | ⟨g1, l⟩ := l; · simp at h
  obtain - | ⟨g2, l⟩ := l; · simp at h
  obtain - | ⟨g3, l⟩ := l; · simp at h
  obtain - | ⟨g4, l⟩ := l; · simp at h
  obtain - | ⟨g5, l⟩ := l; · simp at h
  obtain - | ⟨g6, l⟩ := l; · simp at h
  obtain - | ⟨g7, l⟩ := l; · simp at h
  obtain - | ⟨g8, l⟩ := l; · simp at h
  obtain - | ⟨g9, l⟩ := l
  · exact ⟨g0, g1, g2, g3, g4, g5, g6, g7, g8, rfl⟩
  · simp at h

/-! ### `allFull`, `firstAvailable`, `fra_loop`, `find_random_available` -/

theorem allFull_iff (lst : Grouping) :
    allFull lst = true ↔ ∀ s, 1 ≤ s → s ≤ 8 → 3 ≤ (grp lst s).length := by
  simp only [allFull, List.all_eq_true, List.mem_range'_1, decide_eq_true_eq]
  constructor
  · intro h s h1 h8
    exact h s ⟨h1, by omega⟩
  · intro h s hs
    exact h s hs.1 (by omega)

theorem allFull_eq_false (lst : Grouping) :
    allFull lst = false ↔ ∃ s, 1 ≤ s ∧ s ≤ 8 ∧ (grp lst s).length < 3 := by
  rw [← Bool.not_eq_true, allFull_iff]
  push_neg
  constructor
  · rintro ⟨s, h1, h8, hlt⟩; exact ⟨s, h1, h8, hlt⟩
  · rintro ⟨s, h1, h8, hlt⟩; exact ⟨s, h1, h8, hlt⟩

theorem allFull_totalItems (lst : Grouping) (hlen : lst.length = 9)
    (h : allFull lst = true) : 24 ≤ totalItems lst := by
  rw [allFull_iff] at h
  obtain ⟨g0, g1, g2, g3, g4, g5, g6, g7, g8, rfl⟩ := explode9 lst hlen
  have h1 := h 1 (by omega) (by omega)
  have h2 := h 2 (by omega) (by omega)
  have h3 := h 3 (by omega) (by omega)
  have h4 := h 4 (by omega) (by omega)
  have h5 := h 5 (by omega) (by omega)
  have h6 := h 6 (by omega) (by omega)
  have h7 := h 7 (by omega) (by omega)
  have h8 := h 8 (by omega) (by omega)
  simp only [grp, List.getD, List.get?, Option.getD_some] at h1 h2 h3 h4 h5 h6 h7 h8
  simp only [totalItems, List.map_cons, List.sum_cons, List.map_nil,
    List.sum_nil] at *
  omega

theorem notFull_of_totalItems_lt (lst : Grouping) (hlen : lst.length = 9)
    (h : totalItems lst < 24) : allFull lst = false := by
  cases hAF : allFull lst
  · rfl
  · exact absurd (allFull_totalItems lst hlen hAF) (by omega)

theorem firstAvailable_spec (lst : Grouping) (cur : Nat)
    (h : allFull lst = false) :
    1 ≤ firstAvailable lst cur ∧ firstAvailable lst cur ≤ 8 ∧
      (grp lst (firstAvailable lst cur)).length < 3 := by
  obtain ⟨s, h1, h8, hlt⟩ := (allFull_eq_false lst).mp h
  cases hfind : (List.range' 1 8).find? (fun t => (grp lst t).length < 3) with
  | none =>
    rw [List.find?_eq_none] at hfind
    exact absurd (by simpa using hlt)
      (hfind s (List.mem_range'_1.mpr ⟨h1, by omega⟩))
  | some t =>
    have heq : firstAvailable lst cur = t := by
      unfold firstAvailable
      rw [hfind]
    have hp := List.find?_some hfind
    have hm := List.mem_of_find?_eq_some hfind
    rw [List.mem_range'_1] at hm
    rw [heq]
    exact ⟨hm.1, by omega, by simpa using hp⟩

theorem fra_loop_range (rng : RNG) (lst : Grouping) :
    ∀ (fuel a k : Nat), 1 ≤ a → a ≤ 8 →
      1 ≤ (fra_loop rng lst fuel a k).1 ∧ (fra_loop rng lst fuel a k).1 ≤ 8
  | 0, a, k, h1, h8 => ⟨h1, h8⟩
  | fuel + 1, a, k, h1, h8 => by
    unfold fra_loop
    split
    · exact fra_loop_range rng lst fuel _ _ (by simp [randomize])
        (by simp [randomize]; omega)
    · exact ⟨h1, h8⟩

theorem find_error_iff (rng : RNG) (lst : Grouping) (k : Nat) :
    (∃ e, find_random_available rng lst k = .error e) ↔ allFull lst = true := by
  unfold find_random_available
  constructor
  · intro ⟨e, he⟩
    by_contra hAF
    rw [Bool.not_eq_true] at hAF
    rw [hAF] at he
    simp only [Bool.false_eq_true, if_false] at he
    split at he <;> exact Except.noConfusion he
  · intro hAF
    rw [hAF]
    exact ⟨k, rfl⟩

theorem find_error_of_allFull (rng : RNG) (lst : Grouping) (k : Nat)
    (h : allFull lst = true) : find_random_available rng lst k = .error k := by
  unfold find_random_available
  rw [h]
  rfl

theorem find_ok_of_notFull (rng : RNG) (lst : Grouping) (k : Nat)
    (h : allFull lst = false) :
    ∃ a k2, find_random_available rng lst k = .ok (a, k2) ∧ 1 ≤ a ∧ a ≤ 8 := by
  unfold find_random_available
  rw [h]
  simp only [Bool.false_eq_true, if_false]
  have hr := fra_loop_range rng lst 8 (randomize rng k).1 (randomize rng k).2
    (by simp [randomize]) (by simp [randomize]; omega)
  split
  · obtain ⟨hf1, hf8, -⟩ := firstAvailable_spec lst _ h
    exact ⟨_, _, rfl, hf1, hf8⟩
  · exact ⟨_, _, rfl, hr.1, hr.2⟩

theorem find_ok_spec (rng : RNG) (lst : Grouping) (k a k2 : Nat)
    (hcap : ∀ s, s < 9 → (grp lst s).length ≤ 3)
    (h : find_random_available rng lst k = .ok (a, k2)) :
    1 ≤ a ∧ a ≤ 8 ∧ (grp lst a).length < 3 := by
  have hAF : allFull lst = false := by
    cases hx : allFull lst
    · rfl
    · rw [find_error_of_allFull rng lst k hx] at h
      exact Except.noConfusion h
  unfold find_random_available at h
  rw [hAF] at h
  simp only [Bool.false_eq_true, if_false] at h
  have hr := fra_loop_range rng lst 8 (randomize rng k).1 (randomize rng k).2
    (by simp [randomize]) (by simp [randomize]; omega)
  split at h
  · obtain ⟨hf1, hf8, hflt⟩ := firstAvailable_spec lst
      (fra_loop rng lst 8 (randomize rng k).1 (randomize rng k).2).1 hAF
    simp only [Except.ok.injEq, Prod.mk.injEq] at h
    obtain ⟨rfl, rfl⟩ := h
    exact ⟨hf1, hf8, hflt⟩
  · rename_i hne
    simp only [Except.ok.injEq, Prod.mk.injEq] at h
    obtain ⟨rfl, rfl⟩ := h
    exact ⟨hr.1, hr.2, lt_of_le_of_ne (hcap _ (by omega)) hne⟩

/-! ### `assign_station_for_student` -/

theorem assign_loop_ok (rng : RNG) (g : List Nat) (ns : Grouping)
    (h : allFull ns = false) :
    ∀ (fuel a k : Nat), 1 ≤ a → a ≤ 8 →
      ∃ a2 k2, assign_loop rng g ns fuel a k = .ok (a2, k2) ∧ 1 ≤ a2 ∧ a2 ≤ 8
  | 0, a, k, h1, h8 => ⟨a, k, rfl, h1, h8⟩
  | fuel + 1, a, k, h1, h8 => by
    unfold assign_loop
    split
    · exact ⟨a, k, rfl, h1, h8⟩
    · obtain ⟨b, k2, hfind, hb1, hb8⟩ := find_ok_of_notFull rng ns k h
      rw [hfind]
      exact assign_loop_ok rng g ns h fuel b k2 hb1 hb8

theorem assign_ok (rng : RNG) (g : List Nat) (ns : Grouping) (k : Nat)
    (h : allFull ns = false) :
    ∃ a k2, assign_station_for_student rng g ns k = .ok (a, k2) ∧
      1 ≤ a ∧ a ≤ 8 := by
  unfold assign_station_for_student
  obtain ⟨b, k2, hfind, hb1, hb8⟩ := find_ok_of_notFull rng ns k h
  rw [hfind]
  exact assign_loop_ok rng g ns h 15 b k2 hb1 hb8

theorem assign_loop_spec (rng : RNG) (g : List Nat) (ns : Grouping)
    (hcap : ∀ s, s < 9 → (grp ns s).length ≤ 3) :
    ∀ (fuel a k a2 k2 : Nat),
      1 ≤ a → a ≤ 8 → (grp ns a).length < 3 →
      assign_loop rng g ns fuel a k = .ok (a2, k2) →
      1 ≤ a2 ∧ a2 ≤ 8 ∧ (grp ns a2).length < 3
  | 0, a, k, a2, k2, h1, h8, hlt, h => by
    simp only [assign_loop, Except.ok.injEq, Prod.mk.injEq] at h
    obtain ⟨rfl, rfl⟩ := h
    exact ⟨h1, h8, hlt⟩
  | fuel + 1, a, k, a2, k2, h1, h8, hlt, h => by
    unfold assign_loop at h
    split at h
    · simp only [Except.ok.injEq, Prod.mk.injEq] at h
      obtain ⟨rfl, rfl⟩ := h
      exact ⟨h1, h8, hlt⟩
    · cases hfind : find_random_available rng ns k with
      | error e => rw [hfind] at h; exact Except.noConfusion h
      | ok p =>
        rw [hfind] at h
        obtain ⟨hb1, hb8, hblt⟩ := find_ok_spec rng ns k p.1 p.2 hcap
          (by rw [hfind])
        exact assign_loop_spec rng g ns hcap fuel p.1 p.2 a2 k2 hb1 hb8 hblt h

theorem assign_spec (rng : RNG) (g : List Nat) (ns : Grouping)
    (k a k2 : Nat) (hcap : ∀ s, s < 9 → (grp ns s).length ≤ 3)
    (h : assign_station_for_student rng g ns k = .ok (a, k2)) :
    1 ≤ a ∧ a ≤ 8 ∧ (grp ns a).length < 3 := by
  unfold assign_station_for_student at h
  cases hfind : find_random_available rng ns k with
  | error e => rw [hfind] at h; exact Except.noConfusion h
  | ok p =>
    rw [hfind] at h
    obtain ⟨hb1, hb8, hblt⟩ := find_ok_spec rng ns k p.1 p.2 hcap
      (by rw [hfind])
    exact assign_loop_spec rng g ns hcap 15 p.1 p.2 a k2 hb1 hb8 hblt h

/-! ### Replaying traces: `traceState`, `SafeTrace`, `capAll` -/

theorem traceState_nil : traceState [] = List.replicate 9 [] := rfl

theorem traceState_append_single (tr : List (Nat × Nat)) (e : Nat × Nat) :
    traceState (tr ++ [e]) =
      (traceState tr).set e.2 (grp (traceState tr) e.2 ++ [e.1]) := by
  simp [traceState, List.foldl_append]

theorem foldl_place_length (tr : List (Nat × Nat)) :
    ∀ ns : Grouping,
      (tr.foldl (fun ns e => ns.set e.2 (grp ns e.2 ++ [e.1])) ns).length =
        ns.length := by
  induction tr with
  | nil => intro ns; rfl
  | cons e t ih =>
    intro ns
    simp only [List.foldl_cons]
    rw [ih]
    exact List.length_set ns e.2 _

theorem traceState_length (tr : List (Nat × Nat)) :
    (traceState tr).length = 9 := by
  unfold traceState
  rw [foldl_place_length]
  simp

theorem take_succ_getD (tr : List (Nat × Nat)) (j : Nat) (hj : j < tr.length) :
    tr.take (j + 1) = tr.take j ++ [tr.getD j (0, 0)] := by
  rw [List.take_succ, List.getElem?_eq_getElem hj,
    List.getD_eq_getElem tr (0, 0) hj]
  rfl

theorem safe_take_cap (tr : List (Nat × Nat)) (hsafe : SafeTrace tr) :
    ∀ j, j ≤ tr.length → capAll (traceState (tr.take j)) := by
  intro j
  induction j with
  | zero =>
    intro _ s _
    rw [List.take_zero, traceState_nil, grp_replicate]
    simp
  | succ j ih =>
    intro hj s hs
    have hjlt : j < tr.length := by omega
    obtain ⟨he1, he8, helt⟩ := hsafe j hjlt
    rw [take_succ_getD tr j hjlt, traceState_append_single]
    rcases eq_or_ne s (tr.getD j (0, 0)).2 with rfl | hne
    · rw [grp_set_self _ _ (by rw [traceState_length]; omega)]
      simp only [List.length_append, List.length_cons, List.length_nil]
      omega
    · rw [grp_set_ne _ _ _ hne]
      exact ih (by omega) s hs

theorem safe_capAll (tr : List (Nat × Nat)) (hsafe : SafeTrace tr) :
    capAll (traceState tr) := by
  have := safe_take_cap tr hsafe tr.length le_rfl
  rwa [List.take_length tr] at this

theorem safeTrace_extend (tr : List (Nat × Nat)) (stu a : Nat)
    (hsafe : SafeTrace tr) (h1 : 1 ≤ a) (h8 : a ≤ 8)
    (hlt : (grp (traceState tr) a).length < 3) :
    SafeTrace (tr ++ [(stu, a)]) := by
  intro j hj
  rw [List.length_append, List.length_cons, List.length_nil] at hj
  rcases Nat.lt_or_ge j tr.length with hlt' | hge
  · rw [List.getD_append tr [(stu, a)] (0, 0) j hlt',
      List.take_append_of_le_length (by omega)]
    exact hsafe j hlt'
  · have hj' : j = tr.length := by omega
    subst hj'
    rw [List.getD_append_right tr [(stu, a)] (0, 0) tr.length le_rfl]
    simp only [Nat.sub_self, List.getD]
    rw [List.take_append_of_le_length le_rfl, List.take_length tr]
    exact ⟨h1, h8, hlt⟩

/-! ### The allocator invariant -/

theorem invDS_init : InvDS initState :=
  ⟨rfl, fun j hj => absurd hj (by simp [initState])⟩

theorem invDS_capAll (st : DistState) (h : InvDS st) :
    ∀ s, s < 9 → (grp st.ns s).length ≤ 3 := by
  intro s hs
  rw [h.1]
  exact safe_capAll st.trace h.2 s hs

theorem invDS_place (st : DistState) (stu a k2 : Nat) (h : InvDS st)
    (h1 : 1 ≤ a) (h8 : a ≤ 8) (hlt : (grp st.ns a).length < 3) :
    InvDS (placeAt st stu a k2) := by
  obtain ⟨htied, hsafe⟩ := h
  constructor
  · show st.ns.set a (grp st.ns a ++ [stu]) = traceState (st.trace ++ [(stu, a)])
    rw [traceState_append_single, htied]
  · exact safeTrace_extend st.trace stu a hsafe h1 h8 (htied ▸ hlt)

theorem invDS_placeNonzero (rng : RNG) (g : List Nat) (st : DistState)
    (stu : Nat) (h : InvDS st) : InvDS (placeNonzero rng g st stu) := by
  unfold placeNonzero
  cases hassign : assign_station_for_student rng g st.ns st.k with
  | error k2 => exact ⟨h.1, h.2⟩
  | ok p =>
    obtain ⟨h1, h8, hlt⟩ := assign_spec rng g st.ns st.k p.1 p.2
      (invDS_capAll st h) (by rw [hassign])
    exact invDS_place st stu p.1 p.2 h h1 h8 hlt

theorem invDS_fold_nonzero (rng : RNG) (g : List Nat) :
    ∀ (students : List Nat) (st : DistState), InvDS st →
      InvDS (students.foldl (placeNonzero rng g) st)
  | [], _, h => h
  | stu :: rest, st, h =>
    invDS_fold_nonzero rng g rest _ (invDS_placeNonzero rng g st stu h)

theorem invDS_zero (rng : RNG) :
    ∀ (students : List Nat) (st : DistState), InvDS st →
      InvDS (resultState (distribute_zero rng students st))
  | [], _, h => h
  | stu :: rest, st, h => by
    unfold distribute_zero
    cases hfind : find_random_available rng st.ns st.k with
    | error k2 => exact ⟨h.1, h.2⟩
    | ok p =>
      obtain ⟨h1, h8, hlt⟩ := find_ok_spec rng st.ns st.k p.1 p.2
        (invDS_capAll st h) (by rw [hfind])
      exact invDS_zero rng rest _ (invDS_place st stu p.1 p.2 h h1 h8 hlt)

theorem invDS_aux (rng : RNG) :
    ∀ (l : List (Nat × List Nat)) (st : DistState), InvDS st →
      InvDS (resultState (distribute_aux rng l st))
  | [], _, h => h
  | (key, students) :: rest, st, h => by
    unfold distribute_aux
    split
    · exact invDS_aux rng rest st h
    · split
      · exact invDS_aux rng rest _ (invDS_fold_nonzero rng students students st h)
      · cases hz : distribute_zero rng students st with
        | ok st2 =>
          have := invDS_zero rng students st h
          rw [hz] at this
          exact invDS_aux rng rest st2 this
        | error st2 =>
          have := invDS_zero rng students st h
          rw [hz] at this
          exact this

/-! ### The success path: with at most 24 items no placement ever fails -/

theorem distribute_zero_ok (rng : RNG) (students : List Nat) :
    ∀ st : DistState, st.ns.length = 9 →
      totalItems st.ns + students.length ≤ 24 →
      ∃ st2, distribute_zero rng students st = .ok st2 ∧
        st2.ns.length = 9 ∧
        totalItems st2.ns = totalItems st.ns + students.length ∧
        st2.failures = st.failures ∧
        ∃ tr, st2.trace = st.trace ++ tr ∧ tr.map Prod.fst = students ∧
          ∀ e ∈ tr, 1 ≤ e.2 ∧ e.2 ≤ 8 := by
  induction students with
  | nil =>
    intro st hlen htot
    exact ⟨st, rfl, hlen, by simp, rfl, [], by simp, rfl, by simp⟩
  | cons stu rest ih =>
    intro st hlen htot
    simp only [List.length_cons] at htot
    have hnf : allFull st.ns = false :=
      notFull_of_totalItems_lt st.ns hlen (by omega)
    obtain ⟨a, k2, hfind, ha1, ha8⟩ := find_ok_of_notFull rng st.ns st.k hnf
    have hplen : (placeAt st stu a k2).ns.length = 9 := by
      simp [placeAt, List.length_set, hlen]
    have hptot : totalItems (placeAt st stu a k2).ns = totalItems st.ns + 1 :=
      totalItems_set_append st.ns a stu (by omega)
    obtain ⟨st2, hrun, hlen2, htot2, hfail2, tr, htr, hmap, hsta⟩ :=
      ih (placeAt st stu a k2) hplen (by omega)
    refine ⟨st2, ?_, hlen2, ?_, hfail2, (stu, a) :: tr, ?_, ?_, ?_⟩
    · unfold distribute_zero
      rw [hfind]
      exact hrun
    · rw [htot2, hptot]
      simp only [List.length_cons]
      omega
    · rw [htr]
      show (st.trace ++ [(stu, a)]) ++ tr = st.trace ++ ((stu, a) :: tr)
      simp
    · simp [hmap]
    · intro e he
      rcases List.mem_cons.mp he with rfl | he
      · exact ⟨ha1, ha8⟩
      · exact hsta e he

theorem fold_nonzero_ok (rng : RNG) (g : List Nat) (students : List Nat) :
    ∀ st : DistState, st.ns.length = 9 →
      totalItems st.ns + students.length ≤ 24 →
      (students.foldl (placeNonzero rng g) st).ns.length = 9 ∧
      totalItems (students.foldl (placeNonzero rng g) st).ns =
        totalItems st.ns + students.length ∧
      (students.foldl (placeNonzero rng g) st).failures = st.failures ∧
      ∃ tr, (students.foldl (placeNonzero rng g) st).trace = st.trace ++ tr ∧
        tr.map Prod.fst = students ∧ ∀ e ∈ tr, 1 ≤ e.2 ∧ e.2 ≤ 8 := by
  induction students with
  | nil =>
    intro st hlen htot
    exact ⟨hlen, by simp, rfl, [], by simp, rfl, by simp⟩
  | cons stu rest ih =>
    intro st hlen htot
    simp only [List.length_cons] at htot
    have hnf : allFull st.ns = false :=
      notFull_of_totalItems_lt st.ns hlen (by omega)
    obtain ⟨a, k2, hassign, ha1, ha8⟩ := assign_ok rng g st.ns st.k hnf
    have hpn : placeNonzero rng g st stu = placeAt st stu a k2 := by
      unfold placeNonzero
      rw [hassign]
    have hplen : (placeAt st stu a k2).ns.length = 9 := by
      simp [placeAt, List.length_set, hlen]
    have hptot : totalItems (placeAt st stu a k2).ns = totalItems st.ns + 1 :=
      totalItems_set_append st.ns a stu (by omega)
    obtain ⟨hlen2, htot2, hfail2, tr, htr, hmap, hsta⟩ :=
      ih (placeAt st stu a k2) hplen (by omega)
    rw [List.foldl_cons, hpn]
    refine ⟨hlen2, ?_, hfail2, (stu, a) :: tr, ?_, ?_, ?_⟩
    · rw [htot2, hptot]
      simp only [List.length_cons]
      omega
    · rw [htr]
      show (st.trace ++ [(stu, a)]) ++ tr = st.trace ++ ((stu, a) :: tr)
      simp
    · simp [hmap]
    · intro e he
      rcases List.mem_cons.mp he with rfl | he
      · exact ⟨ha1, ha8⟩
      · exact hsta e he

theorem distribute_aux_ok (rng : RNG) (l : List (Nat × List Nat)) :
    ∀ st : DistState, st.ns.length = 9 → totalItems st.ns + totalOf l ≤ 24 →
      ∃ st2, distribute_aux rng l st = .ok st2 ∧ st2.ns.length = 9 ∧
        totalItems st2.ns = totalItems st.ns + totalOf l ∧
        st2.failures = st.failures ∧
        ∃ tr, st2.trace = st.trace ++ tr ∧
          tr.map Prod.fst = (l.map Prod.snd).flatten ∧
          ∀ e ∈ tr, 1 ≤ e.2 ∧ e.2 ≤ 8 := by
  induction l with
  | nil =>
    intro st hlen htot
    exact ⟨st, rfl, hlen, by simp [totalOf], rfl, [], by simp, by simp, by simp⟩
  | cons p rest ih =>
    obtain ⟨key, students⟩ := p
    intro st hlen htot
    have htotc : totalOf ((key, students) :: rest) =
        students.length + totalOf rest := by
      simp [totalOf]
    unfold distribute_aux
    split
    · rename_i hemp
      have : students = [] := List.isEmpty_iff.mp hemp
      subst this
      obtain ⟨st2, hrun, hlen2, htot2, hfail2, tr, htr, hmap, hsta⟩ :=
        ih st hlen (by rw [htotc] at htot; simpa using htot)
      exact ⟨st2, hrun, hlen2, by rw [htot2]; rw [htotc]; simp, hfail2,
        tr, htr, by simpa using hmap, hsta⟩
    · split
      · obtain ⟨hlen1, htot1, hfail1, tr1, htr1, hmap1, hsta1⟩ :=
          fold_nonzero_ok rng students students st hlen (by omega)
        obtain ⟨st2, hrun, hlen2, htot2, hfail2, tr2, htr2, hmap2, hsta2⟩ :=
          ih (students.foldl (placeNonzero rng students) st) hlen1
            (by rw [htot1]; omega)
        refine ⟨st2, hrun, hlen2, ?_, by rw [hfail2, hfail1],
          tr1 ++ tr2, ?_, ?_, ?_⟩
        · rw [htot2, htot1, htotc]
          omega
        · rw [htr2, htr1, List.append_assoc]
        · simp [hmap1, hmap2]
        · intro e he
          rcases List.mem_append.mp he with he | he
          · exact hsta1 e he
          · exact hsta2 e he
      · obtain ⟨st1, hz, hlen1, htot1, hfail1, tr1, htr1, hmap1, hsta1⟩ :=
          distribute_zero_ok rng students st hlen (by omega)
        rw [hz]
        obtain ⟨st2, hrun, hlen2, htot2, hfail2, tr2, htr2, hmap2, hsta2⟩ :=
          ih st1 hlen1 (by rw [htot1]; omega)
        refine ⟨st2, hrun, hlen2, ?_, by rw [hfail2, hfail1],
          tr1 ++ tr2, ?_, ?_, ?_⟩
        · rw [htot2, htot1, htotc]
          omega
        · rw [htr2, htr1, List.append_assoc]
        · simp [hmap1, hmap2]
        · intro e he
          rcases List.mem_append.mp he with he | he
          · exact hsta1 e he
          · exact hsta2 e he

theorem totalOf_enum (prev : Grouping) : totalOf prev.enum = totalItems prev := by
  unfold totalOf totalItems
  have h : prev.enum.map (fun p => p.2.length) =
      (prev.enum.map Prod.snd).map List.length := by
    rw [List.map_map]
    rfl
  rw [h, List.enum_map_snd]

theorem join_enum_snd (prev : Grouping) :
    (prev.enum.map Prod.snd).flatten = prev.flatten := by
  rw [List.enum_map_snd]

/-! ### Claim theorems -/

/-- Claim C1 (capacity invariant): for every `PreviousState` input and every
draw sequence, the `new_state` produced by `_distribute_students` is exactly
the replay of its placement trace, every placement in that trace targets a
station 1..8 holding fewer than 3 items at the moment of the placement, and
after every prefix of the trace (hence at every intermediate point and at
completion) every station holds at most 3 items. -/
theorem capacity_invariant (rng : RNG) (prev : Grouping) :
    (resultState (distribute_students rng prev initState)).ns =
      traceState (resultState (distribute_students rng prev initState)).trace ∧
    SafeTrace (resultState (distribute_students rng prev initState)).trace ∧
    (∀ j, j ≤ (resultState (distribute_students rng prev initState)).trace.length →
      capAll (traceState
        ((resultState (distribute_students rng prev initState)).trace.take j))) ∧
    capAll (resultState (distribute_students rng prev initState)).ns := by
  have h : InvDS (resultState (distribute_students rng prev initState)) :=
    invDS_aux rng prev.enum initState invDS_init
  refine ⟨h.1, h.2, safe_take_cap _ h.2, ?_⟩
  intro s hs
  rw [h.1]
  exact safe_capAll _ h.2 s hs

/-- Claim C2 (conservation): for a well-formed `previous_state` (groups
0..8) with at most 24 items in total, `_distribute_students` completes
without a `ValueError`, places every item exactly once (the placement trace
lists precisely the items of the previous groups, in order), reports no
per-item failure, and the new state holds exactly as many items as the
previous state. -/
theorem conservation (rng : RNG) (prev : Grouping) (_hlen : prev.length = 9)
    (htot : totalItems prev ≤ 24) :
    ∃ st, distribute_students rng prev initState = .ok st ∧
      totalItems st.ns = totalItems prev ∧ st.failures = [] ∧
      st.trace.map Prod.fst = prev.flatten := by
  have h0 : totalItems initState.ns = 0 := by decide
  obtain ⟨st2, hrun, hlen2, htot2, hfail2, tr, htr, hmap, hsta⟩ :=
    distribute_aux_ok rng prev.enum initState (by decide)
      (by rw [h0, totalOf_enum]; omega)
  refine ⟨st2, hrun, ?_, hfail2, ?_⟩
  · rw [htot2, h0, totalOf_enum]
    omega
  · rw [htr]
    show (([] : List (Nat × Nat)) ++ tr).map Prod.fst = prev.flatten
    rw [List.nil_append, hmap, join_enum_snd]

/-- Witness for C2 at the concrete scenario `prev4` with the all-ones draw
stream. -/
theorem conservation_witness :
    ∃ st, distribute_students rng0 prev4 initState = .ok st ∧
      totalItems st.ns = totalItems prev4 ∧ st.failures = [] ∧
      st.trace.map Prod.fst = prev4.flatten :=
  conservation rng0 prev4 (by decide) (by decide)

/-- Claim C4, amended positive part: on the scenario with previous group 1
holding items 0, 1, 2 and all other groups empty, every draw sequence leads
to a completed run with no `ValueError` raised and no per-item failure; all
three items are placed (in order) into stations 1..8. Pairwise-distinct
stations are NOT guaranteed for every draw sequence (see the
counterexample). -/
theorem end_to_end_ok (rng : RNG) :
    ∃ st, distribute_students rng prev4 initState = .ok st ∧
      st.failures = [] ∧ st.trace.map Prod.fst = [0, 1, 2] ∧
      ∀ e ∈ st.trace, 1 ≤ e.2 ∧ e.2 ≤ 8 := by
  obtain ⟨st2, hrun, hlen2, htot2, hfail2, tr, htr, hmap, hsta⟩ :=
    distribute_aux_ok rng prev4.enum initState (by decide) (by decide)
  refine ⟨st2, hrun, hfail2, ?_, ?_⟩
  · rw [htr]
    show (([] : List (Nat × Nat)) ++ tr).map Prod.fst = [0, 1, 2]
    rw [List.nil_append, hmap]
    decide
  · intro e he
    rw [htr] at he
    rcases List.mem_append.mp he with he | he
    · exact absurd he (by simp [initState])
    · exact hsta e he

/-- Counterexample to C4 as stated: under the all-ones draw stream the
15-retry avoidance bound is exhausted and items 0 and 1 (in fact all three
items) end up in station 1 together, so Allocate does not place the three
items into pairwise distinct stations for every draw sequence. -/
theorem end_to_end_avoidance_cex :
    ¬ ∀ rng : RNG, ∀ s : Nat,
        ¬ (0 ∈ grp (resultState (distribute_students rng prev4 initState)).ns s ∧
           1 ∈ grp (resultState (distribute_students rng prev4 initState)).ns s) :=
  fun h => h rng0 1 ⟨by decide, by decide⟩

/-! ### Order in which groups are processed -/

theorem enumFrom_fst_ge {α : Type} :
    ∀ (xs : List α) (n : Nat) (p : Nat × α), p ∈ List.enumFrom n xs → n ≤ p.1
  | [], _, _, h => absurd h (by simp)
  | x :: t, n, p, h => by
    rcases List.mem_cons.mp h with rfl | h
    · exact le_rfl
    · have := enumFrom_fst_ge t (n + 1) p h
      omega

theorem distribute_zero_trace (rng : RNG) :
    ∀ (students : List Nat) (st st2 : DistState),
      distribute_zero rng students st = .ok st2 →
      ∃ tr, st2.trace = st.trace ++ tr ∧ tr.map Prod.fst = students
  | [], st, st2, h => by
    simp only [distribute_zero, Except.ok.injEq] at h
    subst h
    exact ⟨[], by simp, rfl⟩
  | stu :: rest, st, st2, h => by
    unfold distribute_zero at h
    cases hfind : find_random_available rng st.ns st.k with
    | error k2 => rw [hfind] at h; exact Except.noConfusion h
    | ok p =>
      rw [hfind] at h
      obtain ⟨tr, htr, hmap⟩ := distribute_zero_trace rng rest _ st2 h
      refine ⟨(stu, p.1) :: tr, ?_, by simp [hmap]⟩
      rw [htr]
      show (st.trace ++ [(stu, p.1)]) ++ tr = st.trace ++ ((stu, p.1) :: tr)
      simp

theorem fold_nonzero_trace (rng : RNG) (g : List Nat) :
    ∀ (students : List Nat) (st : DistState),
      ∃ tr, (students.foldl (placeNonzero rng g) st).trace = st.trace ++ tr ∧
        ∀ e ∈ tr, e.1 ∈ students
  | [], st => ⟨[], by simp, by simp⟩
  | stu :: rest, st => by
    obtain ⟨tr, htr, hmem⟩ :=
      fold_nonzero_trace rng g rest (placeNonzero rng g st stu)
    rw [List.foldl_cons]
    cases hassign : assign_station_for_student rng g st.ns st.k with
    | ok p =>
      have htrpn : (placeNonzero rng g st stu).trace =
          st.trace ++ [(stu, p.1)] := by
        unfold placeNonzero
        rw [hassign]
        rfl
      rw [htrpn] at htr
      refine ⟨(stu, p.1) :: tr, ?_, ?_⟩
      · rw [htr]
        simp
      · intro e he
        rcases List.mem_cons.mp he with rfl | he
        · exact List.mem_cons_self stu rest
        · exact List.mem_cons_of_mem stu (hmem e he)
    | error k2 =>
      have htrpn : (placeNonzero rng g st stu).trace = st.trace := by
        unfold placeNonzero
        rw [hassign]
      rw [htrpn] at htr
      exact ⟨tr, htr, fun e he => List.mem_cons_of_mem stu (hmem e he)⟩

theorem aux_trace_nonzero (rng : RNG) :
    ∀ (l : List (Nat × List Nat)) (st st2 : DistState),
      (∀ p ∈ l, p.1 ≠ 0) →
      distribute_aux rng l st = .ok st2 →
      ∃ tr, st2.trace = st.trace ++ tr ∧
        ∀ e ∈ tr, ∃ p ∈ l, p.1 ≠ 0 ∧ e.1 ∈ p.2
  | [], st, st2, _, h => by
    simp only [distribute_aux, Except.ok.injEq] at h
    subst h
    exact ⟨[], by simp, by simp⟩
  | (key, students) :: rest, st, st2, hne, h => by
    unfold distribute_aux at h
    split at h
    · obtain ⟨tr, htr, hmem⟩ := aux_trace_nonzero rng rest st st2
        (fun p hp => hne p (List.mem_cons_of_mem _ hp)) h
      refine ⟨tr, htr, ?_⟩
      intro e he
      obtain ⟨p, hp, hp0, hp2⟩ := hmem e he
      exact ⟨p, List.mem_cons_of_mem _ hp, hp0, hp2⟩
    · split at h
      · obtain ⟨tr1, htr1, hmem1⟩ := fold_nonzero_trace rng students students st
        obtain ⟨tr2, htr2, hmem2⟩ := aux_trace_nonzero rng rest _ st2
          (fun p hp => hne p (List.mem_cons_of_mem _ hp)) h
        refine ⟨tr1 ++ tr2, ?_, ?_⟩
        · rw [htr2, htr1, List.append_assoc]
        · intro e he
          rcases List.mem_append.mp he with he | he
          · rename_i hkey _
            exact ⟨(key, students), List.mem_cons_self _ _, hkey, hmem1 e he⟩
          · obtain ⟨p, hp, hp0, hp2⟩ := hmem2 e he
            exact ⟨p, List.mem_cons_of_mem _ hp, hp0, hp2⟩
      · rename_i hkey
        exact absurd (hne (key, students) (List.mem_cons_self _ _))
          (by simpa using hkey)

/-- Claim C3, amended: previous group 0 is processed FIRST, not last — when
`_distribute_students` completes, its placement trace is the placements of
all group-0 items (in order) followed by the placements coming from the
nonzero groups. -/
theorem processing_order_amended (rng : RNG) (prev : Grouping)
    (st : DistState)
    (h : distribute_students rng prev initState = .ok st) :
    ∃ tr0 tr1, st.trace = tr0 ++ tr1 ∧ tr0.map Prod.fst = grp prev 0 ∧
      ∀ e ∈ tr1, ∃ p ∈ prev.enum, p.1 ≠ 0 ∧ e.1 ∈ p.2 := by
  cases prev with
  | nil =>
    have hst : initState = st := by
      simpa only [distribute_students, List.enum, List.enumFrom,
        distribute_aux, Except.ok.injEq] using h
    subst hst
    exact ⟨[], [], rfl, rfl, by simp⟩
  | cons g rest =>
    have h' : distribute_aux rng ((0, g) :: List.enumFrom 1 rest) initState
        = .ok st := h
    have hrestne : ∀ p ∈ List.enumFrom 1 rest, p.1 ≠ (0 : Nat) := by
      intro p hp
      have := enumFrom_fst_ge rest 1 p hp
      omega
    have hrestmem : ∀ p, p ∈ List.enumFrom 1 rest →
        p ∈ (g :: rest : Grouping).enum := by
      intro p hp
      show p ∈ (0, g) :: List.enumFrom 1 rest
      exact List.mem_cons_of_mem _ hp
    unfold distribute_aux at h'
    split at h'
    · rename_i hemp
      have hg : g = [] := List.isEmpty_iff.mp hemp
      obtain ⟨tr, htr, hmem⟩ := aux_trace_nonzero rng _ initState st hrestne h'
      refine ⟨[], tr, by simpa using htr, by simp [grp_cons_zero, hg], ?_⟩
      intro e he
      obtain ⟨p, hp, hp0, hp2⟩ := hmem e he
      exact ⟨p, hrestmem p hp, hp0, hp2⟩
    · rw [if_neg (by omega)] at h'
      cases hz : distribute_zero rng g initState with
      | error st1 => rw [hz] at h'; exact Except.noConfusion h'
      | ok st1 =>
        rw [hz] at h'
        obtain ⟨tr0, htr0, hmap0⟩ := distribute_zero_trace rng g initState st1 hz
        obtain ⟨tr1, htr1, hmem1⟩ := aux_trace_nonzero rng _ st1 st hrestne h'
        refine ⟨tr0, tr1, ?_, by rw [hmap0]; rfl, ?_⟩
        · rw [htr1, htr0]
          show (([] : List (Nat × Nat)) ++ tr0) ++ tr1 = tr0 ++ tr1
          simp
        · intro e he
          obtain ⟨p, hp, hp0, hp2⟩ := hmem1 e he
          exact ⟨p, hrestmem p hp, hp0, hp2⟩

/-- Witness for the amended C3 on a run that completes: previous group 0 is
`[5]`, group 1 is `[6]`, all-ones draws. -/
theorem processing_order_amended_witness :
    ∃ tr0 tr1,
      (resultState (distribute_students rng0 [[5], [6]] initState)).trace =
        tr0 ++ tr1 ∧
      tr0.map Prod.fst = grp [[5], [6]] 0 ∧
      ∀ e ∈ tr1, ∃ p ∈ ([[5], [6]] : Grouping).enum, p.1 ≠ 0 ∧ e.1 ∈ p.2 :=
  processing_order_amended rng0 [[5], [6]] _ rfl

/-- Counterexample to C3 as stated: with previous group 0 = `[9]` and group
1 = `[7]` and the all-ones draw stream, the group-0 item 9 is placed at
trace position 0, before the group-1 item 7 at position 1 — group 0 is not
processed after the nonzero groups. -/
theorem processing_order_cex :
    ¬ ∀ (rng : RNG) (i j : Nat),
        i < (resultState (distribute_students rng prevC3 initState)).trace.length →
        j < (resultState (distribute_students rng prevC3 initState)).trace.length →
        ((resultState (distribute_students rng prevC3 initState)).trace.getD i (0, 0)).1
          ∈ grp prevC3 0 →
        ((resultState (distribute_students rng prevC3 initState)).trace.getD j (0, 0)).1
          ∈ grp prevC3 1 →
        j < i :=
  fun h =>
    absurd (h rng0 0 1 (by decide) (by decide) (by decide) (by decide))
      (by omega)

/-! ### Containment of capacity errors -/

theorem placeNonzero_count (rng : RNG) (g : List Nat) (st : DistState)
    (stu : Nat) :
    (placeNonzero rng g st stu).trace.length +
      (placeNonzero rng g st stu).failures.length =
    st.trace.length + st.failures.length + 1 := by
  unfold placeNonzero
  split <;> simp [placeAt] <;> omega

theorem fold_nonzero_count (rng : RNG) (g : List Nat) :
    ∀ (students : List Nat) (st : DistState),
      (students.foldl (placeNonzero rng g) st).trace.length +
        (students.foldl (placeNonzero rng g) st).failures.length =
      st.trace.length + st.failures.length + students.length
  | [], st => by simp
  | stu :: rest, st => by
    rw [List.foldl_cons]
    rw [fold_nonzero_count rng g rest (placeNonzero rng g st stu)]
    rw [placeNonzero_count rng g st stu]
    simp only [List.length_cons]
    omega

theorem aux_ok_nonzero (rng : RNG) :
    ∀ (l : List (Nat × List Nat)) (st : DistState),
      (∀ p ∈ l, p.1 = 0 → p.2 = []) →
      ∃ st2, distribute_aux rng l st = .ok st2 ∧
        st2.trace.length + st2.failures.length =
          st.trace.length + st.failures.length + totalOf l
  | [], st, _ => ⟨st, rfl, by simp [totalOf]⟩
  | (key, students) :: rest, st, hz => by
    have htotc : totalOf ((key, students) :: rest) =
        students.length + totalOf rest := by simp [totalOf]
    unfold distribute_aux
    split
    · rename_i hemp
      have hs : students = [] := List.isEmpty_iff.mp hemp
      obtain ⟨st2, hrun, hcount⟩ := aux_ok_nonzero rng rest st
        (fun p hp => hz p (List.mem_cons_of_mem _ hp))
      exact ⟨st2, hrun, by rw [hcount, htotc, hs]; simp⟩
    · split
      · obtain ⟨st2, hrun, hcount⟩ := aux_ok_nonzero rng rest
          (students.foldl (placeNonzero rng students) st)
          (fun p hp => hz p (List.mem_cons_of_mem _ hp))
        refine ⟨st2, hrun, ?_⟩
        rw [hcount, fold_nonzero_count rng students students st, htotc]
        omega
      · rename_i hemp hkey
        have hnil : students = [] := hz (key, students)
          (List.mem_cons_self _ _) (by simpa using hkey)
        subst hnil
        exact absurd rfl hemp

/-- Claim C6, amended: a `ValueError` while placing a nonzero-group item is
caught per item and the run continues (with group 0 empty the run always
completes, every item either placed or recorded as a single-item failure);
the error is NOT contained for group-0 items (see the counterexample). -/
theorem capacity_error_containment (rng : RNG) (prev : Grouping)
    (h0 : grp prev 0 = []) :
    ∃ st, distribute_students rng prev initState = .ok st ∧
      st.trace.length + st.failures.length = totalItems prev := by
  have hkey : ∀ p ∈ prev.enum, p.1 = 0 → p.2 = [] := by
    cases prev with
    | nil => intro p hp; exact absurd hp (by simp)
    | cons g rest =>
      intro p hp hp0
      have hp' : p ∈ (0, g) :: List.enumFrom 1 rest := hp
      rcases List.mem_cons.mp hp' with rfl | hp''
      · exact h0
      · have := enumFrom_fst_ge rest 1 p hp''
        omega
  obtain ⟨st2, hrun, hcount⟩ := aux_ok_nonzero rng prev.enum initState hkey
  refine ⟨st2, hrun, ?_⟩
  rw [hcount, totalOf_enum]
  simp [initState]

/-- Witness for the amended C6: group 0 empty, group 1 = `[7, 8]`. -/
theorem capacity_error_containment_witness :
    ∃ st, distribute_students rng0 [[], [7, 8]] initState = .ok st ∧
      st.trace.length + st.failures.length = totalItems [[], [7, 8]] :=
  capacity_error_containment rng0 [[], [7, 8]] rfl

/-- Counterexample to C6 as stated: with 25 items in previous group 0 and
item 25 in group 1, the 25th group-0 placement raises and the run aborts —
item 25 (and the failing group-0 item) are never attempted, so the
allocator does not continue with the remaining items. -/
theorem capacity_error_cex :
    isError (distribute_students rng0 prevC6 initState) = true ∧
    25 ∉ (resultState (distribute_students rng0 prevC6 initState)).trace.map
      Prod.fst :=
  ⟨by decide, by decide⟩

/-! ### The decoder: row-by-row characterisation -/

theorem collect_cell_fst (ps : Grouping) (i : Nat) (v : RawValue) :
    (collect_cell ps i v).1 =
      match cellKey v with
      | some key => appendAt ps key i
      | none => ps := by
  unfold collect_cell cellKey
  cases hnull : isnull v
  · simp only [Bool.false_eq_true, if_false]
    cases hpy : pyIntOf v with
    | none => rfl
    | some n =>
      by_cases hr : 0 ≤ n ∧ n ≤ 8
      · simp [hr]
      · simp [hr]
  · simp

theorem collect_cell_snd (ps : Grouping) (i : Nat) (v : RawValue) :
    (collect_cell ps i v).2 = isBad v := by
  unfold collect_cell isBad
  cases hnull : isnull v
  · simp only [Bool.false_eq_true, if_false, Bool.not_false, Bool.true_and]
    cases hpy : pyIntOf v with
    | none => rfl
    | some n =>
      by_cases hr : 0 ≤ n ∧ n ≤ 8
      · simp [hr]
      · simp [hr]
  · simp

theorem cellKey_le (v : RawValue) (key : Nat) (h : cellKey v = some key) :
    key ≤ 8 := by
  unfold cellKey at h
  by_cases hnull : isnull v = true
  · rw [if_pos hnull] at h
    injection h with h
    omega
  · rw [if_neg hnull] at h
    cases hpy : pyIntOf v with
    | none => rw [hpy] at h; exact Option.noConfusion h
    | some n =>
      rw [hpy] at h
      have h2 : (if 0 ≤ n ∧ n ≤ 8 then some n.toNat else none) = some key := h
      by_cases hr : 0 ≤ n ∧ n ≤ 8
      · rw [if_pos hr] at h2
        injection h2 with h2
        subst h2
        omega
      · rw [if_neg hr] at h2
        exact Option.noConfusion h2

theorem appendAt_length (ps : Grouping) (key i : Nat) :
    (appendAt ps key i).length = ps.length := List.length_set ps key _

theorem mem_appendAt (ps : Grouping) (key i : Nat) (hlen : ps.length = 9)
    (hkey : key ≤ 8) (m s : Nat) :
    m ∈ grp (appendAt ps key i) s ↔ m ∈ grp ps s ∨ (m = i ∧ s = key) := by
  unfold appendAt
  rcases eq_or_ne s key with rfl | hne
  · rw [grp_set_self _ _ (by omega)]
    simp
  · rw [grp_set_ne _ _ _ hne]
    simp [hne]

theorem collect_aux_mem_grp :
    ∀ (col : List RawValue) (j : Nat) (ps : Grouping) (ds : List Nat),
      ps.length = 9 → ∀ m s : Nat,
      (m ∈ grp (collect_aux j col ps ds).1 s ↔
        m ∈ grp ps s ∨ ∃ t, t < col.length ∧ m = j + t ∧
          cellKey (col.getD t .null) = some s)
  | [], j, ps, ds, _, m, s => by simp [collect_aux]
  | v :: rest, j, ps, ds, hlen, m, s => by
    have hlen2 : (collect_cell ps j v).1.length = 9 := by
      rw [collect_cell_fst]
      cases cellKey v
      · exact hlen
      · rw [appendAt_length]; exact hlen
    have hstep : collect_aux j (v :: rest) ps ds =
        collect_aux (j + 1) rest (collect_cell ps j v).1
          (if (collect_cell ps j v).2 then ds ++ [j] else ds) := rfl
    rw [hstep, collect_aux_mem_grp rest (j + 1) _ _ hlen2 m s]
    have hacc2 : m ∈ grp (collect_cell ps j v).1 s ↔
        m ∈ grp ps s ∨ (m = j ∧ cellKey v = some s) := by
      rw [collect_cell_fst]
      cases hck : cellKey v with
      | none => simp
      | some key =>
        rw [mem_appendAt ps key j hlen (cellKey_le v key hck) m s]
        constructor
        · rintro (hm | ⟨rfl, rfl⟩)
          · exact Or.inl hm
          · exact Or.inr ⟨rfl, rfl⟩
        · rintro (hm | ⟨rfl, hsome⟩)
          · exact Or.inl hm
          · injection hsome with hkey
            subst hkey
            exact Or.inr ⟨rfl, rfl⟩
    rw [hacc2]
    constructor
    · rintro ((hm | ⟨rfl, hck⟩) | ⟨t, ht, rfl, hck⟩)
      · exact Or.inl hm
      · exact Or.inr ⟨0, by simp only [List.length_cons]; omega, by omega,
          by simpa only [List.getD_cons_zero] using hck⟩
      · exact Or.inr ⟨t + 1, by simp only [List.length_cons]; omega, by omega,
          by simpa only [List.getD_cons_succ] using hck⟩
    · rintro (hm | ⟨t, ht, rfl, hck⟩)
      · exact Or.inl (Or.inl hm)
      · cases t with
        | zero => exact Or.inl (Or.inr ⟨by omega,
            by simpa only [List.getD_cons_zero] using hck⟩)
        | succ t2 =>
          refine Or.inr ⟨t2, ?_, by omega,
            by simpa only [List.getD_cons_succ] using hck⟩
          simp only [List.length_cons] at ht
          omega

theorem collect_aux_mem_diag :
    ∀ (col : List RawValue) (j : Nat) (ps : Grouping) (ds : List Nat)
      (m : Nat),
      (m ∈ (collect_aux j col ps ds).2 ↔
        m ∈ ds ∨ ∃ t, t < col.length ∧ m = j + t ∧
          isBad (col.getD t .null) = true)
  | [], j, ps, ds, m => by simp [collect_aux]
  | v :: rest, j, ps, ds, m => by
    have hstep : collect_aux j (v :: rest) ps ds =
        collect_aux (j + 1) rest (collect_cell ps j v).1
          (if (collect_cell ps j v).2 then ds ++ [j] else ds) := rfl
    rw [hstep, collect_aux_mem_diag rest (j + 1) _ _ m]
    have hds : m ∈ (if (collect_cell ps j v).2 then ds ++ [j] else ds) ↔
        m ∈ ds ∨ (m = j ∧ isBad v = true) := by
      rw [collect_cell_snd]
      cases hbad : isBad v
      · simp
      · simp
    rw [hds]
    constructor
    · rintro ((hm | ⟨rfl, hbad⟩) | ⟨t, ht, rfl, hbad⟩)
      · exact Or.inl hm
      · exact Or.inr ⟨0, by simp only [List.length_cons]; omega, by omega,
          by simpa only [List.getD_cons_zero] using hbad⟩
      · exact Or.inr ⟨t + 1, by simp only [List.length_cons]; omega, by omega,
          by simpa only [List.getD_cons_succ] using hbad⟩
    · rintro (hm | ⟨t, ht, rfl, hbad⟩)
      · exact Or.inl (Or.inl hm)
      · cases t with
        | zero => exact Or.inl (Or.inr ⟨by omega,
            by simpa only [List.getD_cons_zero] using hbad⟩)
        | succ t2 =>
          refine Or.inr ⟨t2, ?_, by omega,
            by simpa only [List.getD_cons_succ] using hbad⟩
          simp only [List.length_cons] at ht
          omega

theorem mem_collect_grp (column : List RawValue) (m s : Nat) :
    m ∈ grp (collect_previous_state column).1 s ↔
      m < column.length ∧ cellKey (column.getD m .null) = some s := by
  rw [show collect_previous_state column =
      collect_aux 0 column (List.replicate 9 []) [] from rfl,
    collect_aux_mem_grp column 0 _ [] (by simp) m s]
  rw [grp_replicate]
  simp only [List.not_mem_nil, false_or]
  constructor
  · rintro ⟨t, ht, hmt, hck⟩
    have : t = m := by omega
    subst this
    exact ⟨ht, hck⟩
  · rintro ⟨hm, hck⟩
    exact ⟨m, hm, by omega, hck⟩

theorem mem_collect_diag (column : List RawValue) (m : Nat) :
    m ∈ (collect_previous_state column).2 ↔
      m < column.length ∧ isBad (column.getD m .null) = true := by
  rw [show collect_previous_state column =
      collect_aux 0 column (List.replicate 9 []) [] from rfl,
    collect_aux_mem_diag column 0 _ [] m]
  simp only [List.not_mem_nil, false_or]
  constructor
  · rintro ⟨t, ht, hmt, hbad⟩
    have : t = m := by omega
    subst this
    exact ⟨ht, hbad⟩
  · rintro ⟨hm, hbad⟩
    exact ⟨m, hm, by omega, hbad⟩

/-- Claim C5, amended: the decoder is a total function (it never raises);
a row whose value is non-numeric (the caught `ValueError`/`TypeError`)
emits a diagnostic and is skipped, but a row whose value parses to an
integer OUTSIDE [0, 8] is skipped silently — the `key in previous_state`
test fails and no diagnostic is emitted (see the counterexample). Either
way the skipped item appears in no group. -/
theorem decode_leniency (column : List RawValue) (i : Nat)
    (hi : i < column.length) :
    (isnull (column.getD i .null) = false →
      pyIntOf (column.getD i .null) = none →
      i ∈ (collect_previous_state column).2 ∧
        ∀ s, i ∉ grp (collect_previous_state column).1 s) ∧
    (∀ n : Int, pyIntOf (column.getD i .null) = some n →
      ¬(0 ≤ n ∧ n ≤ 8) →
      i ∉ (collect_previous_state column).2 ∧
        ∀ s, i ∉ grp (collect_previous_state column).1 s) := by
  constructor
  · intro hnn hpy
    constructor
    · rw [mem_collect_diag]
      refine ⟨hi, ?_⟩
      unfold isBad
      rw [hnn, hpy]
      rfl
    · intro s hmem
      rw [mem_collect_grp] at hmem
      obtain ⟨-, hck⟩ := hmem
      unfold cellKey at hck
      rw [if_neg (by rw [hnn]; simp), hpy] at hck
      exact Option.noConfusion hck
  · intro n hpy hr
    have hnn : isnull (column.getD i .null) = false := by
      cases hv : column.getD i .null with
      | null => rw [hv] at hpy; exact Option.noConfusion hpy
      | intVal m => rfl
      | floatVal num den => rfl
      | strVal str => rfl
    constructor
    · intro hmem
      rw [mem_collect_diag] at hmem
      obtain ⟨-, hbad⟩ := hmem
      unfold isBad at hbad
      rw [hpy] at hbad
      simp at hbad
    · intro s hmem
      rw [mem_collect_grp] at hmem
      obtain ⟨-, hck⟩ := hmem
      unfold cellKey at hck
      rw [if_neg (by rw [hnn]; simp), hpy] at hck
      have hck2 : (if 0 ≤ n ∧ n ≤ 8 then some n.toNat else none) =
          some s := hck
      rw [if_neg hr] at hck2
      exact Option.noConfusion hck2

/-- Witness for the amended C5 at the non-numeric cell `"abc"`. -/
theorem decode_leniency_witness :
    (isnull (([RawValue.strVal "abc"] : List RawValue).getD 0 .null) = false →
      pyIntOf (([RawValue.strVal "abc"] : List RawValue).getD 0 .null) = none →
      0 ∈ (collect_previous_state [RawValue.strVal "abc"]).2 ∧
        ∀ s, 0 ∉ grp (collect_previous_state [RawValue.strVal "abc"]).1 s) ∧
    (∀ n : Int,
      pyIntOf (([RawValue.strVal "abc"] : List RawValue).getD 0 .null) =
        some n →
      ¬(0 ≤ n ∧ n ≤ 8) →
      0 ∉ (collect_previous_state [RawValue.strVal "abc"]).2 ∧
        ∀ s, 0 ∉ grp (collect_previous_state [RawValue.strVal "abc"]).1 s) :=
  decode_leniency [RawValue.strVal "abc"] 0 (by decide)

/-- Counterexample to C5 as stated: decoding the single-cell column `[9]`
(an integer out of range) skips the item but emits NO diagnostic, contrary
to the claim that out-of-range integers cause a diagnostic. -/
theorem decode_diag_cex :
    (collect_previous_state [RawValue.intVal 9]).2 = [] ∧
    ∀ s, 0 ∉ grp (collect_previous_state [RawValue.intVal 9]).1 s := by
  refine ⟨by decide, ?_⟩
  intro s hmem
  rw [mem_collect_grp] at hmem
  rw [show cellKey (([RawValue.intVal 9] : List RawValue).getD 0 .null) =
      none from rfl] at hmem
  exact Option.noConfusion hmem.2

/-- Claim C8 (decode test vector): decoding `[1, "abc", 0, 9, null, 3]`
leaves indices 1 and 3 absent from every group, routes index 0 to group 1,
indices 2 and 4 to group 0 and index 5 to group 3. -/
theorem decode_test_vector :
    (∀ s, 1 ∉ grp (collect_previous_state column8).1 s) ∧
    (∀ s, 3 ∉ grp (collect_previous_state column8).1 s) ∧
    0 ∈ grp (collect_previous_state column8).1 1 ∧
    2 ∈ grp (collect_previous_state column8).1 0 ∧
    4 ∈ grp (collect_previous_state column8).1 0 ∧
    5 ∈ grp (collect_previous_state column8).1 3 := by
  refine ⟨?_, ?_, by decide, by decide, by decide, by decide⟩
  · intro s hmem
    rw [mem_collect_grp] at hmem
    rw [show cellKey (column8.getD 1 .null) = none from rfl] at hmem
    exact Option.noConfusion hmem.2
  · intro s hmem
    rw [mem_collect_grp] at hmem
    rw [show cellKey (column8.getD 3 .null) = none from rfl] at hmem
    exact Option.noConfusion hmem.2

/-- Claim C10 (implicit decode truncation): a cell holding a finite
fractional value `num / den` whose Python `int()` truncation (toward zero,
`Int.tdiv`) lies in [1, 8] is routed to that station, with no diagnostic
emitted. -/
theorem decode_truncation (column : List RawValue) (i : Nat)
    (num den : Int) (hv : column.getD i .null = .floatVal num den)
    (hi : i < column.length)
    (h1 : 1 ≤ Int.tdiv num den) (h8 : Int.tdiv num den ≤ 8) :
    i ∈ grp (collect_previous_state column).1 (Int.tdiv num den).toNat ∧
    i ∉ (collect_previous_state column).2 := by
  constructor
  · rw [mem_collect_grp]
    refine ⟨hi, ?_⟩
    rw [hv]
    have hck : cellKey (RawValue.floatVal num den) =
        if 0 ≤ Int.tdiv num den ∧ Int.tdiv num den ≤ 8
        then some (Int.tdiv num den).toNat else none := rfl
    rw [hck, if_pos ⟨by omega, h8⟩]
  · intro hmem
    rw [mem_collect_diag] at hmem
    obtain ⟨-, hbad⟩ := hmem
    rw [hv] at hbad
    simp [isBad, pyIntOf] at hbad

/-- Witness for C10 at the cell `3.7` (= 37/10): the item lands in group 3
and no diagnostic is emitted. -/
theorem decode_truncation_witness :
    0 ∈ grp (collect_previous_state [RawValue.floatVal 37 10]).1
      (Int.tdiv 37 10).toNat ∧
    0 ∉ (collect_previous_state [RawValue.floatVal 37 10]).2 :=
  decode_truncation [RawValue.floatVal 37 10] 0 37 10 rfl (by decide)
    (by decide) (by decide)

/-- Claim C7 (raises-iff for the random search): on a grouping satisfying
the capacity invariant, `find_random_available` raises the
all-stations-full `ValueError` exactly when every station 1..8 holds 3 or
more items, and otherwise returns a station 1..8 currently holding fewer
than 3 items. -/
theorem find_random_available_spec (rng : RNG) (lst : Grouping) (k : Nat)
    (hcap : ∀ s, s < 9 → (grp lst s).length ≤ 3) :
    ((∃ e, find_random_available rng lst k = .error e) ↔
      ∀ s, 1 ≤ s → s ≤ 8 → 3 ≤ (grp lst s).length) ∧
    ∀ a k2, find_random_available rng lst k = .ok (a, k2) →
      1 ≤ a ∧ a ≤ 8 ∧ (grp lst a).length < 3 := by
  constructor
  · rw [find_error_iff]
    exact allFull_iff lst
  · intro a k2 h
    exact find_ok_spec rng lst k a k2 hcap h

/-- Witness for C7 on the empty `new_state`. -/
theorem find_random_available_spec_witness :
    ((∃ e, find_random_available rng0 (List.replicate 9 []) 0 = .error e) ↔
      ∀ s, 1 ≤ s → s ≤ 8 → 3 ≤ (grp (List.replicate 9 []) s).length) ∧
    ∀ a k2, find_random_available rng0 (List.replicate 9 []) 0 = .ok (a, k2) →
      1 ≤ a ∧ a ≤ 8 ∧ (grp (List.replicate 9 []) a).length < 3 :=
  find_random_available_spec rng0 (List.replicate 9 []) 0 (by decide)

/-! ### The encoder -/

theorem getD_set_eq_of_lt (x : Nat) :
    ∀ (l : List Nat) (i : Nat), i < l.length → (l.set i x).getD i 0 = x
  | [], i, h => absurd h (by simp)
  | _ :: _, 0, _ => rfl
  | _ :: t, i + 1, h => getD_set_eq_of_lt x t i (by simpa using h)

theorem getD_set_ne2 (x : Nat) :
    ∀ (l : List Nat) (i j : Nat), j ≠ i → (l.set i x).getD j 0 = l.getD j 0
  | [], _, _, _ => rfl
  | _ :: _, 0, 0, hne => absurd rfl hne
  | _ :: _, 0, _ + 1, _ => rfl
  | _ :: _, _ + 1, 0, _ => rfl
  | _ :: t, i + 1, j + 1, hne =>
    getD_set_ne2 x t i j (fun h => hne (by omega))

theorem getD_replicate_zero : ∀ n j : Nat,
    (List.replicate n (0 : Nat)).getD j 0 = 0
  | 0, _ => rfl
  | _ + 1, 0 => rfl
  | n + 1, j + 1 => getD_replicate_zero n j

theorem writeGroup_length (key : Nat) :
    ∀ (idxs : List Nat) (col : List Nat),
      (writeGroup col key idxs).length = col.length
  | [], _ => rfl
  | i :: rest, col => by
    show (writeGroup (col.set i key) key rest).length = col.length
    rw [writeGroup_length key rest (col.set i key), List.length_set]

theorem getD_writeGroup_not_mem (key j : Nat) :
    ∀ (idxs : List Nat) (col : List Nat), j ∉ idxs →
      (writeGroup col key idxs).getD j 0 = col.getD j 0
  | [], _, _ => rfl
  | i :: rest, col, h => by
    have hji : j ≠ i := fun he => h (he ▸ List.mem_cons_self i rest)
    have hrest : j ∉ rest := fun hr => h (List.mem_cons_of_mem i hr)
    show (writeGroup (col.set i key) key rest).getD j 0 = col.getD j 0
    rw [getD_writeGroup_not_mem key j rest _ hrest, getD_set_ne2 key col i j hji]

theorem getD_writeGroup_mem (key j : Nat) :
    ∀ (idxs : List Nat) (col : List Nat), j ∈ idxs → j < col.length →
      (writeGroup col key idxs).getD j 0 = key
  | [], _, h, _ => absurd h (by simp)
  | i :: rest, col, h, hlt => by
    show (writeGroup (col.set i key) key rest).getD j 0 = key
    by_cases hr : j ∈ rest
    · exact getD_writeGroup_mem key j rest _ hr (by rw [List.length_set]; exact hlt)
    · have hji : j = i := by
        rcases List.mem_cons.mp h with h | h
        · exact h
        · exact absurd h hr
      subst hji
      rw [getD_writeGroup_not_mem key j rest _ hr]
      exact getD_set_eq_of_lt key col j hlt

theorem convert_foldl_length :
    ∀ (state : List (Nat × List Nat)) (col : List Nat),
      (state.foldl (fun c p => writeGroup c p.1 p.2) col).length = col.length
  | [], _ => rfl
  | p :: rest, col => by
    rw [List.foldl_cons, convert_foldl_length rest _, writeGroup_length]

theorem convert_foldl_not_mem (j : Nat) :
    ∀ (state : List (Nat × List Nat)) (col : List Nat),
      (∀ p ∈ state, j ∉ p.2) →
      (state.foldl (fun c p => writeGroup c p.1 p.2) col).getD j 0 =
        col.getD j 0
  | [], _, _ => rfl
  | p :: rest, col, h => by
    rw [List.foldl_cons,
      convert_foldl_not_mem j rest _ (fun q hq => h q (List.mem_cons_of_mem _ hq)),
      getD_writeGroup_not_mem p.1 j p.2 col (h p (List.mem_cons_self _ _))]

theorem convert_foldl_mem (j key : Nat) :
    ∀ (state : List (Nat × List Nat)) (col : List Nat),
      j < col.length →
      (∀ p ∈ state, j ∈ p.2 → p.1 = key) →
      (∃ p ∈ state, j ∈ p.2) →
      (state.foldl (fun c p => writeGroup c p.1 p.2) col).getD j 0 = key
  | [], _, _, _, hex => absurd hex (by simp)
  | (k1, l1) :: rest, col, hlt, huniq, hex => by
    rw [List.foldl_cons]
    by_cases hr : ∃ p ∈ rest, j ∈ p.2
    · exact convert_foldl_mem j key rest (writeGroup col k1 l1)
        (by rw [writeGroup_length]; exact hlt)
        (fun p hp hj => huniq p (List.mem_cons_of_mem _ hp) hj) hr
    · have hjl1 : j ∈ l1 := by
        obtain ⟨p, hp, hj⟩ := hex
        rcases List.mem_cons.mp hp with rfl | hp
        · exact hj
        · exact absurd ⟨p, hp, hj⟩ hr
      have hk1 : k1 = key := huniq (k1, l1) (List.mem_cons_self _ _) hjl1
      rw [convert_foldl_not_mem j rest _
        (fun p hp hj => absurd ⟨p, hp, hj⟩ hr),
        getD_writeGroup_mem k1 j l1 col hjl1 hlt]
      exact hk1

/-- Claim C9 (encode correctness): for a `new_state` whose item indices are
all below the row count `n` and in which no index occurs under two
different station keys (the uniqueness invariant), the produced column has
length `n`, value 0 at every index occurring in no group, and value `s` at
every index listed under station `s`; in particular encoding
`{1: [0, 2], 2: [1]}` with `n = 4` yields `[1, 2, 1, 0]`. -/
theorem convert_state_to_column_spec (n : Nat)
    (state : List (Nat × List Nat))
    (hlt : ∀ p ∈ state, ∀ i ∈ p.2, i < n)
    (huniq : ∀ p ∈ state, ∀ q ∈ state, ∀ i, i ∈ p.2 → i ∈ q.2 → p.1 = q.1) :
    (convert_state_to_column n state).length = n ∧
    (∀ i, (∀ p ∈ state, i ∉ p.2) →
      (convert_state_to_column n state).getD i 0 = 0) ∧
    (∀ s l, (s, l) ∈ state → ∀ i ∈ l,
      (convert_state_to_column n state).getD i 0 = s) ∧
    convert_state_to_column 4 [(1, [0, 2]), (2, [1])] = [1, 2, 1, 0] := by
  refine ⟨?_, ?_, ?_, by decide⟩
  · unfold convert_state_to_column
    rw [convert_foldl_length]
    exact List.length_replicate n 0
  · intro i hni
    unfold convert_state_to_column
    rw [convert_foldl_not_mem i state _ hni, getD_replicate_zero]
  · intro s l hmem i hi
    unfold convert_state_to_column
    exact convert_foldl_mem i s state _
      (by rw [List.length_replicate]; exact hlt (s, l) hmem i hi)
      (fun p hp hj => huniq p hp (s, l) hmem i hj hi)
      ⟨(s, l), hmem, hi⟩

/-- Witness for C9 at the spec example `{1: [0, 2], 2: [1]}`, `n = 4`. -/
theorem convert_state_to_column_spec_witness :
    (convert_state_to_column 4 [(1, [0, 2]), (2, [1])]).length = 4 ∧
    (∀ i, (∀ p ∈ ([(1, [0, 2]), (2, [1])] : List (Nat × List Nat)), i ∉ p.2) →
      (convert_state_to_column 4 [(1, [0, 2]), (2, [1])]).getD i 0 = 0) ∧
    (∀ s l, (s, l) ∈ ([(1, [0, 2]), (2, [1])] : List (Nat × List Nat)) →
      ∀ i ∈ l, (convert_state_to_column 4 [(1, [0, 2]), (2, [1])]).getD i 0 = s) ∧
    convert_state_to_column 4 [(1, [0, 2]), (2, [1])] = [1, 2, 1, 0] :=
  convert_state_to_column_spec 4 [(1, [0, 2]), (2, [1])] (by decide) (by decide)

